import Mathlib

/-!
# Verification of the user-process / user-thread subsystem

A shallow embedding, in Lean 4, of the process lifecycle, argument
packing, ELF segment validation and scheduler code of a small teaching
kernel, together with theorems settling the specification's claims
against it.

Machine integers are modelled as `Nat` with explicit `% 2^32` where the
C code can overflow.  Memory writes performed by the argument packer are
modelled byte-exactly: every write in the source is of the form
`esp -= k; <write k bytes at esp>`, so the stack is represented as the
list of bytes in the address interval `[esp, base)`, lowest address
first, and each write prepends exactly `k` bytes.
-/

namespace Pintos

/-! ## Basic constants (threads/vaddr.h, threads/thread.h) -/

def PGSIZE : Nat := 4096
def PGMASK : Nat := PGSIZE - 1
def PHYS_BASE : Nat := 0xC0000000
def PRI_MIN : Int := 0
def PRI_MAX : Int := 63
def TID_ERROR : Int := -1

/-- Function `is_user_vaddr (vaddr)` from threads/vaddr.h: a virtual address is a
user address iff it is below `PHYS_BASE`. -/
def is_user_vaddr (v : Nat) : Bool := v < PHYS_BASE

/-! ## ELF program header and `validate_segment` (process.c) -/

/-- The fields of `struct Elf32_Phdr` that `validate_segment` inspects.
All fields are 32-bit words, modelled as `Nat < 2^32`. -/
structure Elf32_Phdr where
  p_offset : Nat
  p_vaddr : Nat
  p_filesz : Nat
  p_memsz : Nat
deriving Repr, DecidableEq

/-- Function `validate_segment (phdr, file)` from process.c, translated check by
check.  `flen` is `file_length (file)`.  The additions `p_vaddr +
p_memsz` are 32-bit and may wrap, hence the explicit `% 2^32`. -/
def validate_segment (ph : Elf32_Phdr) (flen : Nat) : Bool :=
  -- p_offset and p_vaddr must have the same page offset
  if (ph.p_offset % 2^32) % PGSIZE ≠ (ph.p_vaddr % 2^32) % PGSIZE then false
  -- p_offset must point within FILE
  else if ph.p_offset > flen then false
  -- p_memsz must be at least as big as p_filesz
  else if ph.p_memsz < ph.p_filesz then false
  -- the segment must not be empty
  else if ph.p_memsz = 0 then false
  -- start and end within the user address space
  else if ¬ is_user_vaddr ph.p_vaddr then false
  else if ¬ is_user_vaddr ((ph.p_vaddr + ph.p_memsz) % 2^32) then false
  -- the region cannot wrap around
  else if (ph.p_vaddr + ph.p_memsz) % 2^32 < ph.p_vaddr then false
  -- disallow mapping page 0
  else if ph.p_vaddr < PGSIZE then false
  else true

/-- The claim's acceptance condition, written from the spec's words
with the one change the code forces: the strict-positivity requirement
is on `p_memsz`, not `p_filesz`. -/
def validSegmentAmended (ph : Elf32_Phdr) (flen : Nat) : Prop :=
  ph.p_offset % PGSIZE = ph.p_vaddr % PGSIZE ∧
  ph.p_offset ≤ flen ∧
  ph.p_filesz ≤ ph.p_memsz ∧
  0 < ph.p_memsz ∧
  ph.p_vaddr < PHYS_BASE ∧
  ph.p_vaddr + ph.p_memsz < PHYS_BASE ∧
  PGSIZE ≤ ph.p_vaddr

/-- The claim's original acceptance condition, verbatim from the spec:
it demands `p_memsz ≥ p_filesz > 0`. -/
def validSegmentClaimed (ph : Elf32_Phdr) (flen : Nat) : Prop :=
  ph.p_offset % PGSIZE = ph.p_vaddr % PGSIZE ∧
  ph.p_offset ≤ flen ∧
  ph.p_filesz ≤ ph.p_memsz ∧
  0 < ph.p_filesz ∧
  ph.p_vaddr < PHYS_BASE ∧
  ph.p_vaddr + ph.p_memsz < PHYS_BASE ∧
  PGSIZE ≤ ph.p_vaddr

instance (ph : Elf32_Phdr) (flen : Nat) : Decidable (validSegmentAmended ph flen) := by
  unfold validSegmentAmended; infer_instance

instance (ph : Elf32_Phdr) (flen : Nat) : Decidable (validSegmentClaimed ph flen) := by
  unfold validSegmentClaimed; infer_instance

end Pintos

namespace Pintos

/-- C5 counterexample input: an all-zero-initialised (`.bss`-only) LOAD
header with `p_filesz = 0` and `p_memsz = PGSIZE`. -/
def c5Phdr : Elf32_Phdr :=
  { p_offset := 0, p_vaddr := 4096, p_filesz := 0, p_memsz := 4096 }

end Pintos

/-- C5: the claim as stated is false: `validate_segment` accepts a LOAD
header with `p_filesz = 0` (and `p_memsz > 0`), which the claim says is
rejected. -/
theorem c5_counterexample :
    Pintos.validate_segment Pintos.c5Phdr 0 = true ∧
    ¬ Pintos.validSegmentClaimed Pintos.c5Phdr 0 := by
  constructor
  · decide
  · decide

/-- C5 (amended): `validate_segment` accepts a program header iff
`p_offset` and `p_vaddr` share an intra-page offset, `p_offset` is at
most the file length, `p_memsz ≥ p_filesz`, `p_memsz > 0`, the region
`[p_vaddr, p_vaddr + p_memsz)` lies in the user address space without
wrapping, and `p_vaddr ≥ PGSIZE`; in particular the emptiness check is
on `p_memsz`, so a header with `p_filesz = 0` but `p_memsz > 0` is
accepted. -/
theorem c5_validate_segment_iff (ph : Pintos.Elf32_Phdr) (flen : Nat)
    (hoff : ph.p_offset < 2^32) (hv : ph.p_vaddr < 2^32) (hm : ph.p_memsz < 2^32) :
    Pintos.validate_segment ph flen = true ↔ Pintos.validSegmentAmended ph flen := by
  unfold Pintos.validate_segment Pintos.validSegmentAmended
  unfold Pintos.is_user_vaddr Pintos.PGSIZE Pintos.PHYS_BASE
  simp only [Nat.mod_eq_of_lt hoff, Nat.mod_eq_of_lt hv, decide_eq_true_eq]
  split_ifs <;> simp_all <;> omega

/-- Witness for `c5_validate_segment_iff` at a concrete header. -/
theorem c5_validate_segment_iff_witness :
    Pintos.c5Phdr.p_offset < 2^32 ∧ Pintos.c5Phdr.p_vaddr < 2^32 ∧
    Pintos.c5Phdr.p_memsz < 2^32 ∧
    (Pintos.validate_segment Pintos.c5Phdr 0 = true ↔
      Pintos.validSegmentAmended Pintos.c5Phdr 0) :=
  ⟨by decide, by decide, by decide,
    c5_validate_segment_iff Pintos.c5Phdr 0 (by decide) (by decide) (by decide)⟩

namespace Pintos

/-! ## Fixed-point arithmetic and the fair scheduler (thread.c) -/

/-- Modelled from the spec: the fixed-point library
(`threads/fixed-point.h`) is not among the given sources.  The spec
describes a fixed-point recent-CPU/load-average estimator with
truncating conversion to integers; `fixed_point_t` is an integer scaled
by the constant `FIX_F`.  C integer division truncates toward zero,
hence `Int.tdiv`. -/
def FIX_F : Int := 16384

/-- Modelled from the spec: conversion of an integer to fixed point. -/
def fix_int (n : Int) : Int := n * FIX_F

/-- Modelled from the spec: truncating conversion of a fixed-point
value to an integer. -/
def fix_trunc (x : Int) : Int := Int.tdiv x FIX_F

/-- Modelled from the spec: fixed-point subtraction. -/
def fix_sub (x y : Int) : Int := x - y

/-- Modelled from the spec: subtraction of an integer from a
fixed-point value. -/
def fix_sub_mix (x n : Int) : Int := x - n * FIX_F

/-- Modelled from the spec: division of a fixed-point value by an
integer scale. -/
def fix_unscale (x n : Int) : Int := Int.tdiv x n

/-- The thread fields that the scheduler code under scrutiny touches. -/
structure KThread where
  tid : Int
  priority : Int
  nice : Int
  recent_cpu : Int
  isIdle : Bool
deriving Repr, DecidableEq

/-- Function `thread_fair_update_priority (t)` from thread.c: a no-op on the
idle thread; otherwise recompute the priority from `recent_cpu` (and,
when `is_mls` is set, `nice`), then clamp it into
`[PRI_MIN, PRI_MAX]`. -/
def thread_fair_update_priority (is_mls : Bool) (t : KThread) : KThread :=
  if t.isIdle then t
  else
    let p := if is_mls
      then fix_trunc (fix_sub_mix (fix_sub (fix_int PRI_MAX) (fix_unscale t.recent_cpu 4)) t.nice)
      else fix_trunc (fix_sub (fix_int PRI_MAX) (fix_unscale t.recent_cpu 4))
    let p' := if p < PRI_MIN then PRI_MIN else if p > PRI_MAX then PRI_MAX else p
    { t with priority := p' }

/-- The spec's fair-priority formula: truncation of
`PRI_MAX − recent_cpu/4 − nice` (with `nice` participating exactly when
`is_mls` is set), clamped to `[PRI_MIN, PRI_MAX]`. -/
def fairPrioritySpec (is_mls : Bool) (nice recent_cpu : Int) : Int :=
  max PRI_MIN (min PRI_MAX
    (Int.tdiv (PRI_MAX * FIX_F - Int.tdiv recent_cpu 4 -
      (if is_mls then nice * FIX_F else 0)) FIX_F))

end Pintos

/-- C8: for a non-idle thread, `thread_fair_update_priority` sets the
priority to the truncation of `PRI_MAX − recent_cpu/4 − nice` (`nice`
included exactly when `is_mls` is set, omitted otherwise) clamped into
`[PRI_MIN, PRI_MAX]`; in particular the result always lies in
`[PRI_MIN, PRI_MAX]`. -/
theorem c8_fair_priority (is_mls : Bool) (t : Pintos.KThread)
    (hidle : t.isIdle = false) :
    (Pintos.thread_fair_update_priority is_mls t).priority =
      Pintos.fairPrioritySpec is_mls t.nice t.recent_cpu ∧
    Pintos.PRI_MIN ≤ (Pintos.thread_fair_update_priority is_mls t).priority ∧
    (Pintos.thread_fair_update_priority is_mls t).priority ≤ Pintos.PRI_MAX := by
  unfold Pintos.thread_fair_update_priority Pintos.fairPrioritySpec
  unfold Pintos.fix_trunc Pintos.fix_sub_mix Pintos.fix_sub Pintos.fix_int Pintos.fix_unscale
  rw [hidle]
  cases is_mls <;>
    simp only [Bool.false_eq_true, if_false, if_true, sub_zero] <;>
    refine ⟨?_, ?_, ?_⟩ <;>
    unfold Pintos.PRI_MIN Pintos.PRI_MAX <;> split_ifs <;> omega

/-- Witness for `c8_fair_priority` at a concrete thread. -/
theorem c8_fair_priority_witness :
    (⟨7, 31, 2, 81920, false⟩ : Pintos.KThread).isIdle = false ∧
    ((Pintos.thread_fair_update_priority true ⟨7, 31, 2, 81920, false⟩).priority =
      Pintos.fairPrioritySpec true 2 81920 ∧
     Pintos.PRI_MIN ≤ (Pintos.thread_fair_update_priority true ⟨7, 31, 2, 81920, false⟩).priority ∧
     (Pintos.thread_fair_update_priority true ⟨7, 31, 2, 81920, false⟩).priority ≤ Pintos.PRI_MAX) :=
  ⟨rfl, c8_fair_priority true ⟨7, 31, 2, 81920, false⟩ rfl⟩

namespace Pintos

/-! ## Ready queue discipline (thread.c) -/

/-- Function `thread_cmp_priority (a, b)` from thread.c: strictly greater
effective priority. -/
def thread_cmp_priority (a b : KThread) : Bool := a.priority > b.priority

/-- Modelled from the spec: `list_insert_ordered` (lib/kernel/list.c is
not among the given sources).  Per the spec the ready queue is
"insertion-ordered by effective priority descending; ties keep
insertion order": the new element is inserted immediately before the
first element it compares strictly above, i.e. after every element it
does not beat. -/
def list_insert_ordered (x : KThread) : List KThread → List KThread
  | [] => [x]
  | y :: ys => if thread_cmp_priority x y then x :: y :: ys else y :: list_insert_ordered x ys

/-- The scheduling policies of thread.h. -/
inductive SchedPolicy
  | fifo
  | prio
  | fair
  | mlfqs
deriving Repr, DecidableEq

/-- Function `thread_enqueue (t)` from thread.c: under FIFO, append at the tail
of the ready list; under PRIO and FAIR, insert ordered by priority;
any other policy value panics (`none`). -/
def thread_enqueue (pol : SchedPolicy) (rl : List KThread) (t : KThread) :
    Option (List KThread) :=
  if pol = SchedPolicy.fifo then some (rl ++ [t])
  else if pol = SchedPolicy.prio then some (list_insert_ordered t rl)
  else if pol = SchedPolicy.fair then some (list_insert_ordered t rl)
  else none

/-- The ready-queue insertion performed by `thread_unblock` in
thread.c: the source calls `list_insert_ordered` directly under every
policy (its call to `thread_enqueue` is commented out). -/
def thread_unblock_enqueue (rl : List KThread) (t : KThread) : List KThread :=
  list_insert_ordered t rl

/-- The ready-queue insertion performed by `thread_yield` in thread.c
for a non-idle current thread: likewise a direct
`list_insert_ordered`. -/
def thread_yield_enqueue (rl : List KThread) (t : KThread) : List KThread :=
  list_insert_ordered t rl

/-- Function `thread_schedule_fifo` from thread.c: pop the head of the ready
list, or return the idle thread when the list is empty. -/
def thread_schedule_fifo (idle : KThread) : List KThread → KThread × List KThread
  | [] => (idle, [])
  | t :: ts => (t, ts)

/-- Ordered insertion places the new element after every queued
element it does not strictly beat and before all the rest. -/
theorem list_insert_ordered_eq (x : KThread) :
    ∀ rl : List KThread,
      list_insert_ordered x rl =
        rl.takeWhile (fun y => !(thread_cmp_priority x y)) ++
          x :: rl.dropWhile (fun y => !(thread_cmp_priority x y))
  | [] => rfl
  | y :: ys => by
    unfold list_insert_ordered
    cases h : thread_cmp_priority x y with
    | true => simp [h, List.takeWhile_cons, List.dropWhile_cons]
    | false =>
      simp only [h, Bool.false_eq_true, if_false, List.takeWhile_cons, List.dropWhile_cons,
        Bool.not_false, if_true, List.cons_append]
      exact congrArg (y :: ·) (list_insert_ordered_eq x ys)

/-- When the newcomer beats nobody in the queue, ordered insertion
degenerates to appending at the tail. -/
theorem list_insert_ordered_append (x : KThread) :
    ∀ rl : List KThread, (∀ y ∈ rl, x.priority ≤ y.priority) →
      list_insert_ordered x rl = rl ++ [x]
  | [], _ => rfl
  | y :: ys, h => by
    unfold list_insert_ordered
    have hy : thread_cmp_priority x y = false := by
      simp only [thread_cmp_priority, decide_eq_false_iff_not, not_lt]
      exact h y (List.mem_cons_self y ys)
    simp only [hy, Bool.false_eq_true, if_false, List.cons_append]
    exact congrArg (y :: ·)
      (list_insert_ordered_append x ys fun z hz => h z (List.mem_cons_of_mem y hz))

end Pintos

/-- C7 counterexample: with the FIFO policy active, `thread_unblock` of
a high-priority thread inserts it at the head of the ready list, not at
the tail. -/
theorem c7_counterexample :
    Pintos.thread_unblock_enqueue [⟨1, 10, 0, 0, false⟩] ⟨2, 20, 0, 0, false⟩ =
      [⟨2, 20, 0, 0, false⟩, ⟨1, 10, 0, 0, false⟩] ∧
    Pintos.thread_unblock_enqueue [⟨1, 10, 0, 0, false⟩] ⟨2, 20, 0, 0, false⟩ ≠
      [⟨1, 10, 0, 0, false⟩] ++ [⟨2, 20, 0, 0, false⟩] := by
  constructor
  · decide
  · decide

/-- C7 (amended): `thread_enqueue` under FIFO does append at the tail,
but the actual Ready transitions (`thread_unblock`, the non-idle path
of `thread_yield`) bypass `thread_enqueue` and insert the thread in
descending-priority order — after every queued thread of priority ≥ its
own and before the first of strictly lower priority — so the tail
append of the claim occurs exactly when the thread's priority is at
most that of every queued thread; the FIFO scheduler selects the next
thread by popping the head of the ready list. -/
theorem c7_ready_queue (idle t : Pintos.KThread) (rl ts : List Pintos.KThread) :
    Pintos.thread_enqueue Pintos.SchedPolicy.fifo rl t = some (rl ++ [t]) ∧
    Pintos.thread_unblock_enqueue rl t =
      rl.takeWhile (fun y => !(Pintos.thread_cmp_priority t y)) ++
        t :: rl.dropWhile (fun y => !(Pintos.thread_cmp_priority t y)) ∧
    Pintos.thread_yield_enqueue rl t =
      rl.takeWhile (fun y => !(Pintos.thread_cmp_priority t y)) ++
        t :: rl.dropWhile (fun y => !(Pintos.thread_cmp_priority t y)) ∧
    Pintos.thread_schedule_fifo idle (t :: ts) = (t, ts) ∧
    Pintos.thread_schedule_fifo idle [] = (idle, []) ∧
    ((∀ y ∈ rl, t.priority ≤ y.priority) →
      Pintos.thread_unblock_enqueue rl t = rl ++ [t]) :=
  ⟨rfl, Pintos.list_insert_ordered_eq t rl, Pintos.list_insert_ordered_eq t rl,
    rfl, rfl, Pintos.list_insert_ordered_append t rl⟩

/-- Witness for `c7_ready_queue`: a lowest-priority thread is indeed
appended at the tail. -/
theorem c7_ready_queue_witness :
    (∀ y ∈ [(⟨1, 10, 0, 0, false⟩ : Pintos.KThread)],
        (⟨2, 5, 0, 0, false⟩ : Pintos.KThread).priority ≤ y.priority) ∧
    Pintos.thread_unblock_enqueue [⟨1, 10, 0, 0, false⟩] ⟨2, 5, 0, 0, false⟩ =
      [⟨1, 10, 0, 0, false⟩] ++ [⟨2, 5, 0, 0, false⟩] :=
  ⟨by decide,
    (c7_ready_queue ⟨0, 0, 0, 0, true⟩ ⟨2, 5, 0, 0, false⟩
      [⟨1, 10, 0, 0, false⟩] []).2.2.2.2.2 (by decide)⟩

namespace Pintos

/-! ## Argument packing: `args_push_stack` (process.c)

Every store the function performs has the shape
`esp -= k; <write the k bytes [esp, esp+k)>`, so the user stack is
modelled as the byte list of the interval `[esp, base)`, lowest address
first, and each store prepends exactly its `k` bytes. -/

/-- The byte-exact model of the stack being built: `stack` holds the
bytes of the address interval `[esp, base)`, lowest address first. -/
structure ArgsState where
  esp : Nat
  stack : List Nat
deriving Repr, DecidableEq

/-- Step `esp -= bs.length` followed by storing `bs` at the new `esp`. -/
def pushBytes (st : ArgsState) (bs : List Nat) : ArgsState :=
  { esp := st.esp - bs.length, stack := bs ++ st.stack }

/-- The little-endian bytes of a 32-bit store `*(uint32_t*) esp = v`. -/
def wordLE (v : Nat) : List Nat :=
  [v % 256, v / 256 % 256, v / 65536 % 256, v / 16777216 % 256]

/-- Step `esp -= 4` followed by a 32-bit store of `v`. -/
def pushWord (st : ArgsState) (v : Nat) : ArgsState := pushBytes st (wordLE v)

/-- The byte stored at address `a` (0 when `a` is outside the written
interval). -/
def readByte (st : ArgsState) (a : Nat) : Nat := st.stack.getD (a - st.esp) 0

/-- The 32-bit little-endian word at address `a`. -/
def readWord (st : ArgsState) (a : Nat) : Nat :=
  readByte st a + 256 * readByte st (a + 1) +
    65536 * readByte st (a + 2) + 16777216 * readByte st (a + 3)

/-- The `n` bytes starting at address `a`. -/
def readBytes (st : ArgsState) (a : Nat) : Nat → List Nat
  | 0 => []
  | n + 1 => readByte st a :: readBytes st (a + 1) n

theorem dropWhile_length_le (p : Nat → Bool) (l : List Nat) :
    (l.dropWhile p).length ≤ l.length := by
  induction l with
  | nil => simp [List.dropWhile]
  | cons x xs ih =>
    simp only [List.dropWhile_cons]
    split
    · exact le_trans ih (Nat.le_succ _)
    · exact le_refl _

/-- Tokenization: `strtok_r (s, " ", &rest)` iterated to exhaustion: the maximal runs
of non-space bytes of the command line, in order. -/
def tokenizeSpaces : List Nat → List (List Nat)
  | [] => []
  | c :: rest =>
    if c = 32 then tokenizeSpaces rest
    else (c :: rest.takeWhile (· ≠ 32)) :: tokenizeSpaces (rest.dropWhile (· ≠ 32))
termination_by s => s.length
decreasing_by
  · simp only [List.length_cons]; omega
  · simp only [List.length_cons]
    exact Nat.lt_succ_of_le (dropWhile_length_le _ _)

/-- The token loop of `args_push_stack`: for each token,
`esp -= size; argv[argc] = esp; strlcpy (esp, token, size);`.  Returns
the final state and the recorded `argv` pointers in index order. -/
def pushTokens : List (List Nat) → ArgsState → ArgsState × List Nat
  | [], st => (st, [])
  | t :: ts, st =>
    let st' := pushBytes st (t ++ [0])
    let r := pushTokens ts st'
    (r.1, st'.esp :: r.2)

/-- Constant `max_argv_size` from `args_push_stack`: the fixed capacity of the
malloc'd `argv` pointer array. -/
def max_argv_size : Nat := 50

/-- The token loop again, with the C array store `argv[argc] = esp`
made bounds-explicit: storing at an index `≥ max_argv_size` is out of
bounds and yields `none`. -/
def pushTokensChecked (argc : Nat) :
    List (List Nat) → ArgsState → Option (ArgsState × List Nat)
  | [], st => some (st, [])
  | t :: ts, st =>
    if argc < max_argv_size then
      let st' := pushBytes st (t ++ [0])
      match pushTokensChecked (argc + 1) ts st' with
      | some (st'', ptrs) => some (st'', st'.esp :: ptrs)
      | none => none
    else none

/-- Function `args_push_stack (file_name, if_esp)` from process.c, statement by
statement.  Input: the command-line bytes and the incoming `*if_esp`
(`base`); output: the final state and the `argv` pointer contents. -/
def args_push_stack (cmdline : List Nat) (base : Nat) : ArgsState × List Nat :=
  let tokens := tokenizeSpaces cmdline
  -- while ((token = strtok_r (rest, " ", &rest))) { ... }
  let r1 := pushTokens tokens ⟨base, []⟩
  let st1 := r1.1
  let argv := r1.2
  let argc := tokens.length
  -- args_num = args_num + sizeof (char*) * (argc + 1) + sizeof (char**) + sizeof (int)
  let args_num := (tokens.map (fun t => t.length + 1)).sum + 4 * (argc + 1) + 4 + 4
  let temp := args_num % 16
  -- if (temp > 0) { esp -= align_size; memset (esp, 0, align_size); }
  let st2 := if temp > 0 then pushBytes st1 (List.replicate (16 - temp) 0) else st1
  -- esp -= 0x04; *(char**) esp = 0
  let st3 := pushWord st2 0
  -- for (i = argc - 1; i >= 0; i--) { esp -= sizeof (char*); *(char**) esp = argv[i]; }
  let st4 := argv.reverse.foldl pushWord st3
  -- esp -= 0x04; *(char***) esp = (esp + 0x04)
  let st5 : ArgsState := ⟨st4.esp - 4, wordLE (st4.esp - 4 + 4) ++ st4.stack⟩
  -- esp -= 0x04; *(int*) esp = argc
  let st6 := pushWord st5 argc
  -- esp -= 0x04; memset (esp, 0, 4)
  let st7 := pushBytes st6 [0, 0, 0, 0]
  (st7, argv)

/-- Total size of the string bodies: each token is copied together with
its terminating NUL. -/
def tokenSizes (tokens : List (List Nat)) : Nat :=
  (tokens.map (fun t => t.length + 1)).sum

/-- The alignment padding `args_push_stack` inserts. -/
def padBytes (tokens : List (List Nat)) : Nat :=
  let args_num := tokenSizes tokens + 4 * (tokens.length + 1) + 4 + 4
  if args_num % 16 > 0 then 16 - args_num % 16 else 0

/-- Total number of bytes `args_push_stack` writes below `base`. -/
def stackBytes (tokens : List (List Nat)) : Nat :=
  tokenSizes tokens + padBytes tokens + 4 * tokens.length + 16

/-- The string-body region: token bodies from low to high addresses are
those of the last token down to the first. -/
def strBytes (tokens : List (List Nat)) : List Nat :=
  ((tokens.map (fun t => t ++ [0])).reverse).flatten

/-- The addresses recorded in `argv`: each token's base address,
obtained by successive size subtractions from `base`. -/
def ptrsFrom (e : Nat) : List (List Nat) → List Nat
  | [] => []
  | t :: ts => (e - (t.length + 1)) :: ptrsFrom (e - (t.length + 1)) ts

end Pintos

namespace Pintos

/-! ### Characterization of the stack built by `args_push_stack` -/

theorem strBytes_cons (t : List Nat) (ts : List (List Nat)) :
    strBytes (t :: ts) = strBytes ts ++ (t ++ [0]) := by
  simp [strBytes]

theorem strBytes_length (ts : List (List Nat)) :
    (strBytes ts).length = tokenSizes ts := by
  induction ts with
  | nil => rfl
  | cons t ts ih =>
    simp only [strBytes_cons, List.length_append, ih, tokenSizes, List.map_cons, List.sum_cons,
      List.length_cons, List.length_nil]
    omega

theorem pushTokens_esp (ts : List (List Nat)) :
    ∀ st : ArgsState, (pushTokens ts st).1.esp = st.esp - tokenSizes ts := by
  induction ts with
  | nil => intro st; simp [pushTokens, tokenSizes]
  | cons t ts ih =>
    intro st
    simp only [pushTokens, ih, pushBytes, tokenSizes, List.map_cons, List.sum_cons,
      List.length_append, List.length_cons, List.length_nil]
    omega

theorem pushTokens_stack (ts : List (List Nat)) :
    ∀ st : ArgsState, (pushTokens ts st).1.stack = strBytes ts ++ st.stack := by
  induction ts with
  | nil => intro st; simp [pushTokens, strBytes]
  | cons t ts ih =>
    intro st
    simp only [pushTokens, ih, pushBytes, strBytes_cons, List.append_assoc]

theorem pushTokens_ptrs (ts : List (List Nat)) :
    ∀ st : ArgsState, (pushTokens ts st).2 = ptrsFrom st.esp ts := by
  induction ts with
  | nil => intro st; rfl
  | cons t ts ih =>
    intro st
    simp only [pushTokens, ih, pushBytes, ptrsFrom, List.length_append, List.length_cons,
      List.length_nil]

theorem foldl_pushWord_stack (l : List Nat) :
    ∀ st : ArgsState,
      (l.foldl pushWord st).stack = (l.reverse.map wordLE).flatten ++ st.stack := by
  induction l with
  | nil => intro st; simp
  | cons a l ih =>
    intro st
    simp only [List.foldl_cons, ih, List.reverse_cons, List.map_append, List.map_cons,
      List.map_nil, List.flatten_append, List.flatten_cons, List.flatten_nil, List.append_nil,
      List.append_assoc]
    rfl

theorem foldl_pushWord_esp (l : List Nat) :
    ∀ st : ArgsState, (l.foldl pushWord st).esp = st.esp - 4 * l.length := by
  induction l with
  | nil => intro st; simp
  | cons a l ih =>
    intro st
    simp only [List.foldl_cons, ih, List.length_cons]
    show (pushBytes st (wordLE a)).esp - 4 * l.length = _
    simp only [pushBytes, wordLE, List.length_cons, List.length_nil]
    omega

theorem pad_step_eq (temp : Nat) (st : ArgsState) :
    (if temp > 0 then pushBytes st (List.replicate (16 - temp) 0) else st) =
      pushBytes st (List.replicate (if temp > 0 then 16 - temp else 0) 0) := by
  split_ifs with h
  · rfl
  · cases st; simp [pushBytes]

end Pintos

namespace Pintos

def finalLayout (tokens : List (List Nat)) (base : Nat) : List Nat :=
  wordLE 0 ++ wordLE tokens.length ++ wordLE (base - stackBytes tokens + 12) ++
    ((ptrsFrom base tokens).map wordLE).flatten ++ wordLE 0 ++
    List.replicate (padBytes tokens) 0 ++ strBytes tokens

theorem ptrsFrom_length (e : Nat) (ts : List (List Nat)) :
    (ptrsFrom e ts).length = ts.length := by
  induction ts generalizing e with
  | nil => rfl
  | cons t ts ih => simp [ptrsFrom, ih]

theorem wordLE_length (v : Nat) : (wordLE v).length = 4 := rfl

theorem wordLE_zero : wordLE 0 = [0, 0, 0, 0] := rfl

theorem tokenSizes_eq (ts : List (List Nat)) :
    (ts.map (fun t => t.length + 1)).sum = tokenSizes ts := rfl

theorem padBytes_eq (ts : List (List Nat)) :
    (if (tokenSizes ts + 4 * (ts.length + 1) + 4 + 4) % 16 > 0
      then 16 - (tokenSizes ts + 4 * (ts.length + 1) + 4 + 4) % 16 else 0) = padBytes ts := rfl

theorem args_push_stack_eq (cmdline : List Nat) (base : Nat)
    (hfit : stackBytes (tokenizeSpaces cmdline) ≤ base) :
    args_push_stack cmdline base =
      (⟨base - stackBytes (tokenizeSpaces cmdline),
        finalLayout (tokenizeSpaces cmdline) base⟩,
       ptrsFrom base (tokenizeSpaces cmdline)) := by
  have hS : stackBytes (tokenizeSpaces cmdline) =
      tokenSizes (tokenizeSpaces cmdline) + padBytes (tokenizeSpaces cmdline) +
        4 * (tokenizeSpaces cmdline).length + 16 := rfl
  unfold args_push_stack
  simp only [pushTokens_esp, pushTokens_stack, pushTokens_ptrs, pad_step_eq]
  simp only [pushWord, pushBytes, foldl_pushWord_stack, foldl_pushWord_esp,
    List.reverse_reverse, List.length_reverse, ptrsFrom_length, List.length_replicate]
  simp only [pushTokens_esp, pushTokens_stack, tokenSizes_eq, padBytes_eq, wordLE_length,
    wordLE_zero, List.length_cons, List.length_nil, List.append_nil, List.append_assoc,
    finalLayout, Prod.mk.injEq, ArgsState.mk.injEq]
  refine ⟨⟨?_, ?_⟩, trivial⟩
  · omega
  · congr 1
    congr 1
    congr 1
    congr 1
    omega

end Pintos

namespace Pintos

/-! ### Reading back from the final layout -/

theorem getD_middle (pre mid post : List Nat) (j : Nat) (hj : j < mid.length) :
    (pre ++ (mid ++ post)).getD (pre.length + j) 0 = mid.getD j 0 := by
  rw [List.getD_append_right _ _ _ _ (Nat.le_add_right _ _), Nat.add_sub_cancel_left,
    List.getD_append _ _ _ _ hj]

/-- Reconstruction of a 32-bit value from its four little-endian
bytes. -/
theorem readWord_of_bytes (st : ArgsState) (a v : Nat)
    (hb : ∀ j, j < 4 → readByte st (a + j) = (wordLE v).getD j 0) (hv : v < 2^32) :
    readWord st a = v := by
  unfold readWord
  have h0 := hb 0 (by omega)
  have h1 := hb 1 (by omega)
  have h2 := hb 2 (by omega)
  have h3 := hb 3 (by omega)
  simp only [Nat.add_zero] at h0
  rw [h0, h1, h2, h3]
  simp only [wordLE, List.getD_cons_zero, List.getD_cons_succ]
  omega

/-- Reading a 32-bit word back from a store of `wordLE v`. -/
theorem readWord_middle (st : ArgsState) (pre post : List Nat) (v : Nat)
    (hst : st.stack = pre ++ (wordLE v ++ post)) (hv : v < 2^32) :
    readWord st (st.esp + pre.length) = v := by
  refine readWord_of_bytes st _ v (fun j hj => ?_) hv
  unfold readByte
  rw [hst]
  have ha : st.esp + pre.length + j - st.esp = pre.length + j := by omega
  rw [ha]
  exact getD_middle pre (wordLE v) post j (by simp only [wordLE, List.length_cons, List.length_nil]; omega)

end Pintos

namespace Pintos

theorem tokenSizes_cons (t : List Nat) (ts : List (List Nat)) :
    tokenSizes (t :: ts) = (t.length + 1) + tokenSizes ts := by
  simp [tokenSizes]

/-- Total size of the bodies of the first `k` tokens. -/
def prefSizes (ts : List (List Nat)) (k : Nat) : Nat := tokenSizes (ts.take k)

theorem prefSizes_zero (ts : List (List Nat)) : prefSizes ts 0 = 0 := rfl

theorem prefSizes_cons_succ (t : List Nat) (ts : List (List Nat)) (k : Nat) :
    prefSizes (t :: ts) (k + 1) = (t.length + 1) + prefSizes ts k := by
  simp [prefSizes, tokenSizes_cons]

theorem prefSizes_le (ts : List (List Nat)) (k : Nat) :
    prefSizes ts k ≤ tokenSizes ts := by
  induction ts generalizing k with
  | nil => simp [prefSizes, List.take_nil]
  | cons t ts ih =>
    cases k with
    | zero => simp [prefSizes_zero]
    | succ k =>
      rw [prefSizes_cons_succ, tokenSizes_cons]
      exact Nat.add_le_add_left (ih k) _

theorem getD_len_lt_prefSizes (ts : List (List Nat)) (i : Nat) (h : i < ts.length) :
    (ts.getD i []).length + 1 ≤ prefSizes ts (i + 1) := by
  induction ts generalizing i with
  | nil => simp at h
  | cons t ts ih =>
    cases i with
    | zero =>
      rw [prefSizes_cons_succ]
      simp [List.getD_cons_zero, prefSizes_zero]
    | succ i =>
      rw [prefSizes_cons_succ]
      simp only [List.getD_cons_succ]
      have := ih i (by simpa using h)
      omega

theorem len_flatten_map_wordLE (ws : List Nat) :
    ((ws.map wordLE).flatten).length = 4 * ws.length := by
  induction ws with
  | nil => rfl
  | cons w ws ih =>
    simp only [List.map_cons, List.flatten_cons, List.length_append, ih, wordLE_length,
      List.length_cons]
    omega

theorem flatten_map_wordLE_getD (ws : List Nat) (i j : Nat) (hi : i < ws.length) (hj : j < 4) :
    ((ws.map wordLE).flatten).getD (4 * i + j) 0 = (wordLE (ws.getD i 0)).getD j 0 := by
  induction ws generalizing i with
  | nil => simp at hi
  | cons w ws ih =>
    simp only [List.map_cons, List.flatten_cons]
    cases i with
    | zero =>
      simp only [Nat.mul_zero, Nat.zero_add, List.getD_cons_zero]
      exact List.getD_append _ _ _ _ (by simp only [wordLE_length]; omega)
    | succ i =>
      have h4 : 4 * (i + 1) + j = (wordLE w).length + (4 * i + j) := by
        simp only [wordLE_length]; omega
      rw [h4, List.getD_append_right _ _ _ _ (Nat.le_add_right _ _), Nat.add_sub_cancel_left,
        List.getD_cons_succ]
      exact ih i (by simpa using hi)

theorem strBytes_getD (ts : List (List Nat)) (i j : Nat) (hi : i < ts.length)
    (hj : j < (ts.getD i []).length + 1) :
    (strBytes ts).getD (tokenSizes ts - prefSizes ts (i + 1) + j) 0 =
      ((ts.getD i []) ++ [0]).getD j 0 := by
  induction ts generalizing i with
  | nil => simp at hi
  | cons t ts ih =>
    rw [strBytes_cons]
    cases i with
    | zero =>
      simp only [List.getD_cons_zero] at hj ⊢
      have hoff : tokenSizes (t :: ts) - prefSizes (t :: ts) 1 + j = (strBytes ts).length + j := by
        rw [tokenSizes_cons, prefSizes_cons_succ, prefSizes_zero, strBytes_length]
        omega
      rw [hoff, List.getD_append_right _ _ _ _ (Nat.le_add_right _ _), Nat.add_sub_cancel_left]
    | succ i =>
      simp only [List.getD_cons_succ] at hj ⊢
      have hi' : i < ts.length := by simpa using hi
      have hple := prefSizes_le ts (i + 1)
      have hlen := getD_len_lt_prefSizes ts i hi'
      have hoff : tokenSizes (t :: ts) - prefSizes (t :: ts) (i + 1 + 1) + j =
          tokenSizes ts - prefSizes ts (i + 1) + j := by
        rw [tokenSizes_cons, prefSizes_cons_succ]
        omega
      rw [hoff, List.getD_append _ _ _ _ (by rw [strBytes_length]; omega)]
      exact ih i hi' hj

theorem ptrsFrom_getD (ts : List (List Nat)) (e i : Nat) (hi : i < ts.length) :
    (ptrsFrom e ts).getD i 0 = e - prefSizes ts (i + 1) := by
  induction ts generalizing e i with
  | nil => simp at hi
  | cons t ts ih =>
    cases i with
    | zero =>
      simp only [ptrsFrom, List.getD_cons_zero, prefSizes_cons_succ, prefSizes_zero]
    | succ i =>
      simp only [ptrsFrom, List.getD_cons_succ, prefSizes_cons_succ]
      rw [ih _ i (by simpa using hi)]
      omega

theorem readBytes_eq_of (st : ArgsState) :
    ∀ (l : List Nat) (a : Nat), (∀ j, j < l.length → readByte st (a + j) = l.getD j 0) →
      readBytes st a l.length = l := by
  intro l
  induction l with
  | nil => intro a _; rfl
  | cons x xs ih =>
    intro a h
    simp only [List.length_cons, readBytes]
    have h0 := h 0 (by simp only [List.length_cons]; omega)
    simp only [Nat.add_zero, List.getD_cons_zero] at h0
    rw [h0]
    refine congrArg (x :: ·) (ih (a + 1) (fun j hj => ?_))
    have := h (j + 1) (by simp only [List.length_cons]; omega)
    simp only [List.getD_cons_succ] at this
    rw [show a + 1 + j = a + (j + 1) by omega]
    exact this

end Pintos

namespace Pintos

theorem length_le_tokenSizes (ts : List (List Nat)) : ts.length ≤ tokenSizes ts := by
  induction ts with
  | nil => simp [tokenSizes]
  | cons t ts ih =>
    rw [tokenSizes_cons]
    simp only [List.length_cons]
    omega

theorem align_arith (base S p c : Nat) (h16 : base % 16 = 0)
    (halign : (S + 4 * c + 12 + p) % 16 = 0) (hfit : S + p + 4 * c + 16 ≤ base) :
    (base - (S + p + 4 * c + 16) + 4) % 16 = 0 := by omega

theorem padBytes_align (ts : List (List Nat)) :
    (tokenSizes ts + 4 * ts.length + 12 + padBytes ts) % 16 = 0 := by
  simp only [padBytes]
  split_ifs <;> omega

/-- Reading back one `argv[i]` pointer slot from the flattened word
region. -/
theorem readWord_flatten_slot (st : ArgsState) (pre post : List Nat) (ws : List Nat) (i : Nat)
    (hst : st.stack = pre ++ ((ws.map wordLE).flatten ++ post)) (hi : i < ws.length)
    (hv : ws.getD i 0 < 2 ^ 32) :
    readWord st (st.esp + pre.length + 4 * i) = ws.getD i 0 := by
  refine readWord_of_bytes st _ _ (fun j hj => ?_) hv
  unfold readByte
  rw [hst, show st.esp + pre.length + 4 * i + j - st.esp = pre.length + (4 * i + j) by omega]
  rw [getD_middle pre _ post (4 * i + j) (by rw [len_flatten_map_wordLE]; omega)]
  exact flatten_map_wordLE_getD ws i j hi hj

end Pintos

/-- C3: for every command line whose tokens fit the loader's limits
(the written region fits below `base` and `base` is a 16-byte-aligned
32-bit address), the stack built by `args_push_stack` satisfies: the
byte layout from low to high addresses is fake return address 0,
`argc`, `argv` (pointing at the `argv[0]` slot), the `argv[0..argc-1]`
pointers, a NULL sentinel, alignment padding, then the string bodies;
`argc` equals the number of whitespace-delimited tokens; each `argv[i]`
points at a NUL-terminated copy of token `i`; and the final `esp` is
16-byte aligned after the fake return slot. -/
theorem c3_args_push_stack (cmdline : List Nat) (base : Nat)
    (hnul : 0 ∉ cmdline)
    (h16 : base % 16 = 0)
    (hfit : Pintos.stackBytes (Pintos.tokenizeSpaces cmdline) ≤ base)
    (h32 : base ≤ 2 ^ 32) :
    (Pintos.args_push_stack cmdline base).1.stack =
        Pintos.wordLE 0 ++ Pintos.wordLE (Pintos.tokenizeSpaces cmdline).length ++
          Pintos.wordLE ((Pintos.args_push_stack cmdline base).1.esp + 12) ++
          ((Pintos.args_push_stack cmdline base).2.map Pintos.wordLE).flatten ++
          Pintos.wordLE 0 ++
          List.replicate (Pintos.padBytes (Pintos.tokenizeSpaces cmdline)) 0 ++
          Pintos.strBytes (Pintos.tokenizeSpaces cmdline) ∧
    (Pintos.args_push_stack cmdline base).2.length =
      (Pintos.tokenizeSpaces cmdline).length ∧
    Pintos.readWord (Pintos.args_push_stack cmdline base).1
        (Pintos.args_push_stack cmdline base).1.esp = 0 ∧
    Pintos.readWord (Pintos.args_push_stack cmdline base).1
        ((Pintos.args_push_stack cmdline base).1.esp + 4) =
      (Pintos.tokenizeSpaces cmdline).length ∧
    Pintos.readWord (Pintos.args_push_stack cmdline base).1
        ((Pintos.args_push_stack cmdline base).1.esp + 8) =
      (Pintos.args_push_stack cmdline base).1.esp + 12 ∧
    (∀ i, i < (Pintos.tokenizeSpaces cmdline).length →
      Pintos.readWord (Pintos.args_push_stack cmdline base).1
          ((Pintos.args_push_stack cmdline base).1.esp + 12 + 4 * i) =
        (Pintos.args_push_stack cmdline base).2.getD i 0 ∧
      Pintos.readBytes (Pintos.args_push_stack cmdline base).1
          ((Pintos.args_push_stack cmdline base).2.getD i 0)
          (((Pintos.tokenizeSpaces cmdline).getD i []).length + 1) =
        (Pintos.tokenizeSpaces cmdline).getD i [] ++ [0]) ∧
    Pintos.readWord (Pintos.args_push_stack cmdline base).1
        ((Pintos.args_push_stack cmdline base).1.esp + 12 +
          4 * (Pintos.tokenizeSpaces cmdline).length) = 0 ∧
    ((Pintos.args_push_stack cmdline base).1.esp + 4) % 16 = 0 := by
  classical
  rw [Pintos.args_push_stack_eq cmdline base hfit]
  set tokens := Pintos.tokenizeSpaces cmdline with htokens
  clear_value tokens
  have hS : Pintos.stackBytes tokens =
      Pintos.tokenSizes tokens + Pintos.padBytes tokens + 4 * tokens.length + 16 := rfl
  have hlen := Pintos.length_le_tokenSizes tokens
  have halign := Pintos.padBytes_align tokens
  dsimp only
  rw [hS] at hfit
  refine ⟨by simp [Pintos.finalLayout], Pintos.ptrsFrom_length base tokens, ?_, ?_, ?_, ?_, ?_, ?_⟩
  · -- fake return address 0 at esp
    have h := Pintos.readWord_middle
      ⟨base - Pintos.stackBytes tokens, Pintos.finalLayout tokens base⟩ []
      (Pintos.wordLE tokens.length ++ (Pintos.wordLE (base - Pintos.stackBytes tokens + 12) ++
        (((Pintos.ptrsFrom base tokens).map Pintos.wordLE).flatten ++ (Pintos.wordLE 0 ++
        (List.replicate (Pintos.padBytes tokens) 0 ++ Pintos.strBytes tokens))))) 0
      (by simp [Pintos.finalLayout, List.append_assoc]) (by norm_num)
    simpa using h
  · -- argc at esp + 4
    have h := Pintos.readWord_middle
      ⟨base - Pintos.stackBytes tokens, Pintos.finalLayout tokens base⟩ (Pintos.wordLE 0)
      (Pintos.wordLE (base - Pintos.stackBytes tokens + 12) ++
        (((Pintos.ptrsFrom base tokens).map Pintos.wordLE).flatten ++ (Pintos.wordLE 0 ++
        (List.replicate (Pintos.padBytes tokens) 0 ++ Pintos.strBytes tokens))))
      tokens.length
      (by simp [Pintos.finalLayout, List.append_assoc]) (by omega)
    simpa [Pintos.wordLE_length] using h
  · -- argv pointer at esp + 8, pointing at the argv[0] slot
    have h := Pintos.readWord_middle
      ⟨base - Pintos.stackBytes tokens, Pintos.finalLayout tokens base⟩
      (Pintos.wordLE 0 ++ Pintos.wordLE tokens.length)
      (((Pintos.ptrsFrom base tokens).map Pintos.wordLE).flatten ++ (Pintos.wordLE 0 ++
        (List.replicate (Pintos.padBytes tokens) 0 ++ Pintos.strBytes tokens)))
      (base - Pintos.stackBytes tokens + 12)
      (by simp [Pintos.finalLayout, List.append_assoc]) (by omega)
    simpa [Pintos.wordLE_length] using h
  · -- the argv[i] slots and the NUL-terminated string bodies
    intro i hi
    have hi' : i < (Pintos.ptrsFrom base tokens).length := by
      rw [Pintos.ptrsFrom_length]; exact hi
    have hgetd := Pintos.ptrsFrom_getD tokens base i hi
    have hplen := Pintos.getD_len_lt_prefSizes tokens i hi
    have hple := Pintos.prefSizes_le tokens (i + 1)
    constructor
    · have h := Pintos.readWord_flatten_slot
        ⟨base - Pintos.stackBytes tokens, Pintos.finalLayout tokens base⟩
        (Pintos.wordLE 0 ++ (Pintos.wordLE tokens.length ++
          Pintos.wordLE (base - Pintos.stackBytes tokens + 12)))
        (Pintos.wordLE 0 ++
          (List.replicate (Pintos.padBytes tokens) 0 ++ Pintos.strBytes tokens))
        (Pintos.ptrsFrom base tokens) i
        (by simp [Pintos.finalLayout, List.append_assoc]) hi'
        (by rw [hgetd]; omega)
      simpa [Pintos.wordLE_length] using h
    · have hl : (tokens.getD i [] ++ [0]).length = (tokens.getD i []).length + 1 := by simp
      rw [← hl]
      refine Pintos.readBytes_eq_of _ _ _ (fun j hj => ?_)
      rw [hl] at hj
      unfold Pintos.readByte
      have hst : Pintos.finalLayout tokens base =
          (Pintos.wordLE 0 ++ (Pintos.wordLE tokens.length ++
            (Pintos.wordLE (base - Pintos.stackBytes tokens + 12) ++
            (((Pintos.ptrsFrom base tokens).map Pintos.wordLE).flatten ++
            (Pintos.wordLE 0 ++ List.replicate (Pintos.padBytes tokens) 0))))) ++
          Pintos.strBytes tokens := by
        simp [Pintos.finalLayout, List.append_assoc]
      have hpre : (Pintos.wordLE 0 ++ (Pintos.wordLE tokens.length ++
          (Pintos.wordLE (base - Pintos.stackBytes tokens + 12) ++
          (((Pintos.ptrsFrom base tokens).map Pintos.wordLE).flatten ++
          (Pintos.wordLE 0 ++ List.replicate (Pintos.padBytes tokens) 0))))).length =
          16 + 4 * tokens.length + Pintos.padBytes tokens := by
        simp only [List.length_append, Pintos.wordLE_length, Pintos.len_flatten_map_wordLE,
          Pintos.ptrsFrom_length, List.length_replicate]
        omega
      dsimp only
      rw [hgetd, hst]
      rw [show base - Pintos.prefSizes tokens (i + 1) + j -
            (base - Pintos.stackBytes tokens) =
          (Pintos.wordLE 0 ++ (Pintos.wordLE tokens.length ++
            (Pintos.wordLE (base - Pintos.stackBytes tokens + 12) ++
            (((Pintos.ptrsFrom base tokens).map Pintos.wordLE).flatten ++
            (Pintos.wordLE 0 ++ List.replicate (Pintos.padBytes tokens) 0))))).length +
            (Pintos.tokenSizes tokens - Pintos.prefSizes tokens (i + 1) + j) by
        rw [hpre]; omega]
      rw [List.getD_append_right _ _ _ _ (Nat.le_add_right _ _), Nat.add_sub_cancel_left]
      exact Pintos.strBytes_getD tokens i j hi hj
  · -- NULL sentinel above the argv slots
    have h := Pintos.readWord_middle
      ⟨base - Pintos.stackBytes tokens, Pintos.finalLayout tokens base⟩
      (Pintos.wordLE 0 ++ (Pintos.wordLE tokens.length ++
        (Pintos.wordLE (base - Pintos.stackBytes tokens + 12) ++
        ((Pintos.ptrsFrom base tokens).map Pintos.wordLE).flatten)))
      (List.replicate (Pintos.padBytes tokens) 0 ++ Pintos.strBytes tokens) 0
      (by simp [Pintos.finalLayout, List.append_assoc]) (by norm_num)
    simp only [List.length_append, Pintos.wordLE_length, Pintos.len_flatten_map_wordLE,
      Pintos.ptrsFrom_length] at h
    rw [show base - Pintos.stackBytes tokens + (4 + (4 + (4 + 4 * tokens.length))) =
        base - Pintos.stackBytes tokens + 12 + 4 * tokens.length by omega] at h
    exact h
  · -- 16-byte alignment after the fake return slot
    rw [hS]
    exact Pintos.align_arith base (Pintos.tokenSizes tokens) (Pintos.padBytes tokens)
      tokens.length h16 halign hfit


namespace Pintos

/-- The `echo hi` command line, as bytes. -/
def echoHi : List Nat := [101, 99, 104, 111, 32, 104, 105]

theorem pushTokensChecked_eq (ts : List (List Nat)) :
    ∀ (st : ArgsState) (argc : Nat), argc + ts.length ≤ max_argv_size →
      pushTokensChecked argc ts st = some (pushTokens ts st) := by
  induction ts with
  | nil => intro st argc _; rfl
  | cons t ts ih =>
    intro st argc h
    have hargc : argc < max_argv_size := by
      simp only [List.length_cons] at h; omega
    simp only [pushTokensChecked, hargc, if_true, pushTokens]
    rw [ih _ (argc + 1) (by simp only [List.length_cons] at h; omega)]

end Pintos

/-- C9: for a command line of at most 50 whitespace-delimited tokens,
every store into the fixed 50-entry `argv` pointer array is in bounds:
the bounds-checked token loop never takes its out-of-bounds branch and
agrees with the unchecked model, and the pointer array contents it
produces (read back by the later `argv[i]` loop) have at most 50
entries. -/
theorem c9_argv_bounds (cmdline : List Nat) (st : Pintos.ArgsState)
    (h : (Pintos.tokenizeSpaces cmdline).length ≤ Pintos.max_argv_size) :
    Pintos.pushTokensChecked 0 (Pintos.tokenizeSpaces cmdline) st =
      some (Pintos.pushTokens (Pintos.tokenizeSpaces cmdline) st) ∧
    (Pintos.pushTokens (Pintos.tokenizeSpaces cmdline) st).2.length ≤
      Pintos.max_argv_size := by
  constructor
  · exact Pintos.pushTokensChecked_eq _ st 0 (by omega)
  · rw [Pintos.pushTokens_ptrs, Pintos.ptrsFrom_length]
    exact h

/-- Witness for `c9_argv_bounds` on `echo hi`. -/
theorem c9_argv_bounds_witness :
    (Pintos.tokenizeSpaces Pintos.echoHi).length ≤ Pintos.max_argv_size ∧
    (Pintos.pushTokensChecked 0 (Pintos.tokenizeSpaces Pintos.echoHi) ⟨4096, []⟩ =
      some (Pintos.pushTokens (Pintos.tokenizeSpaces Pintos.echoHi) ⟨4096, []⟩) ∧
    (Pintos.pushTokens (Pintos.tokenizeSpaces Pintos.echoHi) ⟨4096, []⟩).2.length ≤
      Pintos.max_argv_size) :=
  ⟨by simp [Pintos.echoHi, Pintos.tokenizeSpaces, Pintos.max_argv_size],
    c9_argv_bounds Pintos.echoHi ⟨4096, []⟩
      (by simp [Pintos.echoHi, Pintos.tokenizeSpaces, Pintos.max_argv_size])⟩

/-- Witness for `c3_args_push_stack` on `echo hi` at `base = 4096`:
in particular the final `esp` is 16-byte aligned after the fake return
slot. -/
theorem c3_args_push_stack_witness :
    0 ∉ Pintos.echoHi ∧ (4096 : Nat) % 16 = 0 ∧
    Pintos.stackBytes (Pintos.tokenizeSpaces Pintos.echoHi) ≤ 4096 ∧
    (4096 : Nat) ≤ 2 ^ 32 ∧
    ((Pintos.args_push_stack Pintos.echoHi 4096).1.esp + 4) % 16 = 0 :=
  ⟨by decide, by decide,
    by simp [Pintos.echoHi, Pintos.tokenizeSpaces]; decide,
    by decide,
    (c3_args_push_stack Pintos.echoHi 4096 (by decide) (by decide)
      (by simp [Pintos.echoHi, Pintos.tokenizeSpaces]; decide)
      (by decide)).2.2.2.2.2.2.2⟩

namespace Pintos

/-! ## Join records and the process lifecycle (process.c)

`struct thread_block` records live in the process-global
`thread_block_list`.  Kernel semaphores are modelled by their counter;
an operation that would block in `sema_down` returns `none`. -/

/-- Record `struct thread_block` from userprog/process.h. -/
structure ThreadBlock where
  tid : Int
  pid : Int
  exit_code : Int
  was_waited : Bool
  semapth : Nat
  load_semapth : Nat
  load_success : Bool
deriving Repr, DecidableEq

/-- Function `get_thread_block (tid)` from process.c: the first record of the
global list whose `tid` matches. -/
def get_thread_block : List ThreadBlock → Int → Option ThreadBlock
  | [], _ => none
  | b :: bs, tid => if b.tid = tid then some b else get_thread_block bs tid

/-- Mutation through the pointer returned by `get_thread_block`:
update the first record whose `tid` matches. -/
def update_thread_block (f : ThreadBlock → ThreadBlock) :
    List ThreadBlock → Int → List ThreadBlock
  | [], _ => []
  | b :: bs, tid => if b.tid = tid then f b :: bs else b :: update_thread_block f bs tid

/-- Step `list_remove (&block->elem)` on the record found by
`get_thread_block`: remove the first record whose `tid` matches. -/
def remove_first_block : List ThreadBlock → Int → List ThreadBlock
  | [], _ => []
  | b :: bs, tid => if b.tid = tid then bs else b :: remove_first_block bs tid

/-- Function `set_exit_code (t, code)` from process.c: record the exit code in
the thread's join record when one exists. -/
def set_exit_code (l : List ThreadBlock) (tid code : Int) : List ThreadBlock :=
  update_thread_block (fun b => { b with exit_code := code }) l tid

/-- Step `if (block != NULL) sema_up (&block->semapth)` of process_exit: signal the join
semaphore of the first record whose `tid` matches, when present. -/
def sema_up_block (l : List ThreadBlock) (tid : Int) : List ThreadBlock :=
  match get_thread_block l tid with
  | none => l
  | some _ => update_thread_block (fun b => { b with semapth := b.semapth + 1 }) l tid

/-- Function `remove_thread_block (pid)` from process.c: remove (and free)
every record whose creator `pid` field matches. -/
def remove_thread_block (l : List ThreadBlock) (pid : Int) : List ThreadBlock :=
  l.filter (fun b => !(decide (b.pid = pid)))

/-- Number of records with a given `tid`. -/
def countTid : List ThreadBlock → Int → Nat
  | [], _ => 0
  | b :: bs, t => (if b.tid = t then 1 else 0) + countTid bs t

/-- Function `process_wait (child_pid)` from process.c, line by line.
`cur_pid` is the caller's effective pid (its own tid when it has no
PCB or main thread, otherwise its PCB's main-thread tid).  `none`
means the call blocks in `sema_down`. -/
def process_wait (cur_pid child_pid : Int) (l : List ThreadBlock) :
    Option (Int × List ThreadBlock) :=
  match get_thread_block l child_pid with
  | none => some (-1, l)
  | some block =>
    if block.was_waited then some (-1, l)
    else
      -- block->was_waited = true (before the parent check)
      let l1 := update_thread_block (fun b => { b with was_waited := true }) l child_pid
      if block.pid ≠ cur_pid then some (-1, l1)
      else if block.semapth = 0 then none
      else
        let l2 := update_thread_block (fun b => { b with semapth := b.semapth - 1 }) l1 child_pid
        some (block.exit_code, remove_first_block l2 child_pid)

/-- The effect of a child's exit on the join-record table: the syscall
exit handler records the code with `set_exit_code`, then
`process_exit` signals the child's own join semaphore and removes the
records of the child's own children (`remove_thread_block (cur->tid)`).
The peer-thread loop is a no-op for a process that spawned no user
threads (its `all_threads` roster is empty). -/
def child_exit_record (l : List ThreadBlock) (tid code : Int) : List ThreadBlock :=
  remove_thread_block (sema_up_block (set_exit_code l tid code) tid) tid

end Pintos

namespace Pintos

theorem get_update_eq (f : ThreadBlock → ThreadBlock) (hf : ∀ b, (f b).tid = b.tid) :
    ∀ (l : List ThreadBlock) (t : Int),
      get_thread_block (update_thread_block f l t) t =
        (get_thread_block l t).map f := by
  intro l
  induction l with
  | nil => intro t; rfl
  | cons b bs ih =>
    intro t
    by_cases h : b.tid = t
    · simp [update_thread_block, get_thread_block, h, hf]
    · simp [update_thread_block, get_thread_block, h, ih]

theorem countTid_update (f : ThreadBlock → ThreadBlock) (hf : ∀ b, (f b).tid = b.tid) :
    ∀ (l : List ThreadBlock) (t u : Int),
      countTid (update_thread_block f l t) u = countTid l u := by
  intro l
  induction l with
  | nil => intro t u; rfl
  | cons b bs ih =>
    intro t u
    by_cases h : b.tid = t
    · simp [update_thread_block, countTid, h, hf, ih]
    · simp [update_thread_block, countTid, h, ih]

theorem countTid_get_none : ∀ (l : List ThreadBlock) (t : Int),
    countTid l t = 0 → get_thread_block l t = none := by
  intro l
  induction l with
  | nil => intro t _; rfl
  | cons b bs ih =>
    intro t h
    by_cases hb : b.tid = t
    · simp [countTid, hb] at h
    · simp [get_thread_block, hb]
      exact ih t (by simpa [countTid, hb] using h)

theorem get_remove_first_none : ∀ (l : List ThreadBlock) (t : Int),
    countTid l t ≤ 1 → get_thread_block (remove_first_block l t) t = none := by
  intro l
  induction l with
  | nil => intro t _; rfl
  | cons b bs ih =>
    intro t h
    by_cases hb : b.tid = t
    · simp only [remove_first_block, hb, if_true]
      refine countTid_get_none bs t ?_
      simp [countTid, hb] at h
      omega
    · simp only [remove_first_block, hb, if_false, get_thread_block]
      exact ih t (by simpa [countTid, hb] using h)

theorem get_filter_eq (q : ThreadBlock → Bool) :
    ∀ (l : List ThreadBlock) (t : Int) (b : ThreadBlock),
      get_thread_block l t = some b → countTid l t ≤ 1 → q b = true →
        get_thread_block (l.filter q) t = some b := by
  intro l
  induction l with
  | nil => intro t b h; simp [get_thread_block] at h
  | cons x xs ih =>
    intro t b hget hcount hq
    by_cases hx : x.tid = t
    · simp only [get_thread_block, hx, if_true, Option.some.injEq] at hget
      subst hget
      simp only [List.filter_cons, hq, if_true, get_thread_block, hx, if_true]
    · simp only [get_thread_block, hx, if_false] at hget
      have hcount' : countTid xs t ≤ 1 := by simpa [countTid, hx] using hcount
      simp only [List.filter_cons]
      split
      · simp only [get_thread_block, hx, if_false]
        exact ih t b hget hcount' hq
      · exact ih t b hget hcount' hq

theorem countTid_filter_le (q : ThreadBlock → Bool) :
    ∀ (l : List ThreadBlock) (t : Int), countTid (l.filter q) t ≤ countTid l t := by
  intro l
  induction l with
  | nil => intro t; simp [countTid]
  | cons x xs ih =>
    intro t
    simp only [List.filter_cons]
    split
    · simp only [countTid]
      exact Nat.add_le_add_left (ih t) _
    · simp only [countTid]
      have := ih t
      omega

end Pintos

/-- C1: for a child process whose join record is present (uniquely),
un-waited, and owned by parent `p`, a first `process_wait` by the
parent after the child has exited returns exactly the exit code the
child's exit recorded, and any subsequent `process_wait` on the same
pid returns -1. -/
theorem c1_wait_exactly_once (l : List Pintos.ThreadBlock) (b : Pintos.ThreadBlock)
    (c p k : Int)
    (hget : Pintos.get_thread_block l c = some b)
    (huniq : Pintos.countTid l c ≤ 1)
    (hw : b.was_waited = false)
    (hp : b.pid = p)
    (hpc : p ≠ c) :
    ∃ l', Pintos.process_wait p c (Pintos.child_exit_record l c k) = some (k, l') ∧
      Pintos.process_wait p c l' = some (-1, l') := by
  classical
  have hget1 : Pintos.get_thread_block (Pintos.set_exit_code l c k) c =
      some { b with exit_code := k } := by
    unfold Pintos.set_exit_code
    rw [Pintos.get_update_eq (fun x => { x with exit_code := k }) (fun _ => rfl) l c, hget]
    rfl
  have hcnt1 : Pintos.countTid (Pintos.set_exit_code l c k) c ≤ 1 := by
    unfold Pintos.set_exit_code
    rw [Pintos.countTid_update (fun x => { x with exit_code := k }) (fun _ => rfl) l c c]
    exact huniq
  have hget2 : Pintos.get_thread_block
      (Pintos.sema_up_block (Pintos.set_exit_code l c k) c) c =
      some { b with exit_code := k, semapth := b.semapth + 1 } := by
    unfold Pintos.sema_up_block
    rw [hget1]
    rw [Pintos.get_update_eq (fun x => { x with semapth := x.semapth + 1 })
      (fun _ => rfl) _ c, hget1]
    rfl
  have hcnt2 : Pintos.countTid
      (Pintos.sema_up_block (Pintos.set_exit_code l c k) c) c ≤ 1 := by
    unfold Pintos.sema_up_block
    rw [hget1]
    rw [Pintos.countTid_update (fun x => { x with semapth := x.semapth + 1 })
      (fun _ => rfl) _ c c]
    exact hcnt1
  have hq : (fun x : Pintos.ThreadBlock => !(decide (x.pid = c)))
      ({ b with exit_code := k, semapth := b.semapth + 1 }) = true := by
    simp only [Bool.not_eq_true']
    simp only [decide_eq_false_iff_not]
    rw [hp]
    exact hpc
  have hget3 : Pintos.get_thread_block (Pintos.child_exit_record l c k) c =
      some { b with exit_code := k, semapth := b.semapth + 1 } := by
    unfold Pintos.child_exit_record Pintos.remove_thread_block
    exact Pintos.get_filter_eq _ _ c _ hget2 hcnt2 hq
  have hcnt3 : Pintos.countTid (Pintos.child_exit_record l c k) c ≤ 1 := by
    unfold Pintos.child_exit_record Pintos.remove_thread_block
    exact le_trans (Pintos.countTid_filter_le _ _ c) hcnt2
  refine ⟨Pintos.remove_first_block (Pintos.update_thread_block
      (fun x => { x with semapth := x.semapth - 1 })
      (Pintos.update_thread_block (fun x => { x with was_waited := true })
        (Pintos.child_exit_record l c k) c) c) c, ?_, ?_⟩
  case _ =>
    unfold Pintos.process_wait
    rw [hget3]
    simp only [hw, Bool.false_eq_true, if_false, hp, ne_eq, not_true_eq_false,
      Nat.succ_ne_zero, Nat.add_eq_zero, and_false, ite_false]
  case _ =>
    have hcnt4 : Pintos.countTid (Pintos.update_thread_block
        (fun x => { x with semapth := x.semapth - 1 })
        (Pintos.update_thread_block (fun x => { x with was_waited := true })
          (Pintos.child_exit_record l c k) c) c) c ≤ 1 := by
      rw [Pintos.countTid_update (fun x => { x with semapth := x.semapth - 1 })
        (fun _ => rfl) _ c c,
        Pintos.countTid_update (fun x => { x with was_waited := true })
          (fun _ => rfl) _ c c]
      exact hcnt3
    have hnone := Pintos.get_remove_first_none _ c hcnt4
    unfold Pintos.process_wait
    rw [hnone]

/-- Witness for `c1_wait_exactly_once` at a concrete table. -/
theorem c1_wait_exactly_once_witness :
    Pintos.get_thread_block [⟨5, 1, -1, false, 0, 0, true⟩] 5 =
      some ⟨5, 1, -1, false, 0, 0, true⟩ ∧
    Pintos.countTid [⟨5, 1, -1, false, 0, 0, true⟩] 5 ≤ 1 ∧
    (∃ l', Pintos.process_wait 1 5
        (Pintos.child_exit_record [⟨5, 1, -1, false, 0, 0, true⟩] 5 42) = some (42, l') ∧
      Pintos.process_wait 1 5 l' = some (-1, l')) :=
  ⟨by decide, by decide,
    c1_wait_exactly_once [⟨5, 1, -1, false, 0, 0, true⟩] ⟨5, 1, -1, false, 0, 0, true⟩
      5 1 42 (by decide) (by decide) rfl rfl (by decide)⟩

/-- C2 counterexample: when the caller is not the child's parent,
`process_wait` returns -1 but has already flipped the join record's
`was_waited` flag: the record is not left unchanged on that -1 path. -/
theorem c2_counterexample :
    Pintos.process_wait 2 5 [⟨5, 1, 42, false, 1, 0, true⟩] =
      some (-1, [⟨5, 1, 42, true, 1, 0, true⟩]) ∧
    ([⟨5, 1, 42, true, 1, 0, true⟩] : List Pintos.ThreadBlock) ≠
      [⟨5, 1, 42, false, 1, 0, true⟩] := by
  constructor
  · decide
  · decide

/-- C2 (amended): `process_wait` returns -1 immediately, without
downing the join semaphore, when the record is absent, already waited,
or the caller is not the parent; the record is left unchanged on the
absent and already-waited paths, but on the not-parent path
`was_waited` has already been set to true before -1 is returned; only
with the parent calling on an un-waited record does it set
`was_waited`, down the join semaphore (blocking while it is 0), and
return the recorded exit code after removing the record. -/
theorem c2_process_wait_paths (cur child : Int) (l : List Pintos.ThreadBlock) :
    (Pintos.get_thread_block l child = none →
      Pintos.process_wait cur child l = some (-1, l)) ∧
    (∀ b, Pintos.get_thread_block l child = some b → b.was_waited = true →
      Pintos.process_wait cur child l = some (-1, l)) ∧
    (∀ b, Pintos.get_thread_block l child = some b → b.was_waited = false →
      b.pid ≠ cur →
      Pintos.process_wait cur child l =
        some (-1, Pintos.update_thread_block
          (fun x => { x with was_waited := true }) l child)) ∧
    (∀ b, Pintos.get_thread_block l child = some b → b.was_waited = false →
      b.pid = cur → b.semapth = 0 →
      Pintos.process_wait cur child l = none) ∧
    (∀ b, Pintos.get_thread_block l child = some b → b.was_waited = false →
      b.pid = cur → b.semapth ≠ 0 →
      Pintos.process_wait cur child l =
        some (b.exit_code, Pintos.remove_first_block
          (Pintos.update_thread_block (fun x => { x with semapth := x.semapth - 1 })
            (Pintos.update_thread_block (fun x => { x with was_waited := true }) l child)
            child) child)) := by
  refine ⟨?_, ?_, ?_, ?_, ?_⟩
  · intro hnone
    unfold Pintos.process_wait
    rw [hnone]
  · intro b hb hw
    unfold Pintos.process_wait
    rw [hb]
    simp only [hw, if_true]
  · intro b hb hw hpid
    unfold Pintos.process_wait
    rw [hb]
    simp only [hw, Bool.false_eq_true, if_false, hpid, ne_eq, not_false_eq_true, if_true]
  · intro b hb hw hpid hs
    unfold Pintos.process_wait
    rw [hb]
    simp only [hw, Bool.false_eq_true, if_false, hpid, ne_eq, not_true_eq_false, if_false,
      hs, if_true]
  · intro b hb hw hpid hs
    unfold Pintos.process_wait
    rw [hb]
    simp only [hw, Bool.false_eq_true, if_false, hpid, ne_eq, not_true_eq_false, if_false,
      hs, ite_false]

/-- Witness for `c2_process_wait_paths`: the not-parent path at a
concrete table. -/
theorem c2_process_wait_paths_witness :
    Pintos.get_thread_block [⟨5, 1, 42, false, 1, 0, true⟩] 5 =
      some ⟨5, 1, 42, false, 1, 0, true⟩ ∧
    Pintos.process_wait 2 5 [⟨5, 1, 42, false, 1, 0, true⟩] =
      some (-1, Pintos.update_thread_block (fun x => { x with was_waited := true })
        [⟨5, 1, 42, false, 1, 0, true⟩] 5) :=
  ⟨by decide,
    (c2_process_wait_paths 2 5 [⟨5, 1, 42, false, 1, 0, true⟩]).2.2.1
      ⟨5, 1, 42, false, 1, 0, true⟩ (by decide) rfl (by decide)⟩

namespace Pintos

/-- Function `pthread_join (tid)` from process.c, line by line.  `main_tid` is
`thread_current()->pcb->main_thread->tid` and `pcb_sema` the counter of
the PCB-level semaphore `pcb->semapth`.  The result carries the return
value, the new PCB-semaphore counter and the new record table; `none`
means the call blocks in `sema_down`. -/
def pthread_join (main_tid : Int) (pcb_sema : Nat) (tid : Int)
    (l : List ThreadBlock) : Option (Int × Nat × List ThreadBlock) :=
  if tid = main_tid then
    -- joining the main thread downs the PCB-level semaphore
    if pcb_sema = 0 then none
    else some (tid, pcb_sema - 1, l)
  else
    match get_thread_block l tid with
    | none => some (TID_ERROR, pcb_sema, l)
    | some block =>
      if block.pid ≠ main_tid then some (TID_ERROR, pcb_sema, l)
      else if block.was_waited then some (TID_ERROR, pcb_sema, l)
      else
        let l1 := update_thread_block (fun b => { b with was_waited := true }) l tid
        if block.semapth = 0 then none
        else some (tid, pcb_sema,
          update_thread_block (fun b => { b with semapth := b.semapth - 1 }) l1 tid)

/-- The outcome of `process_execute`, carrying the record table, and
whether the command-line scratch page has been freed at that point. -/
inductive ExecOutcome where
  | returned (r : Int) (blocks : List ThreadBlock) (pageFreed : Bool)
  | blockedOnLoadBarrier (blocks : List ThreadBlock) (pageFreed : Bool)
deriving Repr, DecidableEq

/-- Function `process_execute (file_name)` from process.c, with allocation
results as oracle inputs: `palloc_ok` is whether `palloc_get_page`
succeeds and `tid` is `thread_create`'s result.  The record is pushed
before `thread_create` and its `tid` field assigned right after.  The
`sema_down` on the record's load barrier (initialised to 0) blocks
until the child signals it; when `tid = TID_ERROR` no child exists, so
nothing ever signals and the parent stays blocked.  For a created
child, `child_signals` and `child_load_success` describe the barrier
signal the child eventually performs. -/
def process_execute (cur_pid : Int) (palloc_ok : Bool) (tid : Int)
    (child_signals child_load_success : Bool) (l : List ThreadBlock) : ExecOutcome :=
  if ¬ palloc_ok then ExecOutcome.returned TID_ERROR l false
  else
    let blk : ThreadBlock :=
      { tid := tid, pid := cur_pid, exit_code := -1, was_waited := false,
        semapth := 0, load_semapth := 0, load_success := false }
    let l1 := l ++ [blk]
    if tid = TID_ERROR then
      -- palloc_free_page (fn_copy); then sema_down on the untouched barrier
      ExecOutcome.blockedOnLoadBarrier l1 true
    else if child_signals then
      ExecOutcome.returned (if child_load_success then tid else TID_ERROR)
        (update_thread_block (fun b => { b with load_success := child_load_success }) l1 tid)
        false
    else ExecOutcome.blockedOnLoadBarrier l1 false

/-- The slice of kernel state the `pcb == NULL` branch of
`process_exit` can reach: the global join-record table, the global
all-threads list, and — for the frame conditions — the per-process
file tables, sync-object tables and page directories, all untouched by
that branch. -/
structure KernelState where
  blocks : List ThreadBlock
  allList : List Int
  fileTables : List (Int × List (Int × Int))
  syncTables : List (Int × List Int)
  pageDirs : List (Int × Int)
deriving Repr, DecidableEq

/-- Function `thread_exit ()` from thread.c, as it affects this state slice:
the dying thread is removed from the global all-threads list. -/
def thread_exit_state (s : KernelState) (tid : Int) : KernelState :=
  { s with allList := s.allList.erase tid }

/-- The `pcb == NULL` branch of `process_exit` (process.c): signal the
caller's own join record when one exists, then `thread_exit`. -/
def process_exit_null_pcb (s : KernelState) (tid : Int) : KernelState :=
  thread_exit_state { s with blocks := sema_up_block s.blocks tid } tid

theorem countTid_zero_of_get_none : ∀ (l : List ThreadBlock) (t : Int),
    get_thread_block l t = none → countTid l t = 0 := by
  intro l
  induction l with
  | nil => intro t _; rfl
  | cons b bs ih =>
    intro t h
    by_cases hb : b.tid = t
    · simp [get_thread_block, hb] at h
    · simp only [get_thread_block, hb, if_false] at h
      simp [countTid, hb, ih t h]

theorem filter_update_ne (f : ThreadBlock → ThreadBlock) (hf : ∀ b, (f b).tid = b.tid) :
    ∀ (l : List ThreadBlock) (t : Int),
      (update_thread_block f l t).filter (fun b => !(decide (b.tid = t))) =
        l.filter (fun b => !(decide (b.tid = t))) := by
  intro l
  induction l with
  | nil => intro t; rfl
  | cons b bs ih =>
    intro t
    by_cases hb : b.tid = t
    · simp [update_thread_block, hb, List.filter_cons, hf]
    · simp [update_thread_block, hb, List.filter_cons, ih]

theorem length_update (f : ThreadBlock → ThreadBlock) :
    ∀ (l : List ThreadBlock) (t : Int),
      (update_thread_block f l t).length = l.length := by
  intro l
  induction l with
  | nil => intro t; rfl
  | cons b bs ih =>
    intro t
    by_cases hb : b.tid = t
    · simp [update_thread_block, hb]
    · simp [update_thread_block, hb, ih]

end Pintos

/-- C6 counterexample: with the PCB semaphore counter at 2, two
successive `pthread_join` calls on the main thread both succeed and
return its tid; the second does not return `TID_ERROR`. -/
theorem c6_counterexample :
    Pintos.pthread_join 1 2 1 [] = some (1, 1, []) ∧
    Pintos.pthread_join 1 1 1 [] = some (1, 0, []) ∧
    (1 : Int) ≠ Pintos.TID_ERROR := by
  refine ⟨?_, ?_, ?_⟩ <;> decide

/-- C6 (amended): for a non-main thread of the PCB, `pthread_join`
succeeds at most once — the first join returns the thread's tid and
marks the record, and any second attempt returns `TID_ERROR`; joining
the main thread instead downs the PCB-level semaphore and returns the
tid whenever it returns at all, never `TID_ERROR`. -/
theorem c6_pthread_join_once (main_tid tid : Int) (s : Nat)
    (l : List Pintos.ThreadBlock) (b : Pintos.ThreadBlock)
    (hne : tid ≠ main_tid)
    (hget : Pintos.get_thread_block l tid = some b)
    (hpid : b.pid = main_tid)
    (hw : b.was_waited = false)
    (hs : b.semapth ≠ 0) :
    Pintos.pthread_join main_tid s tid l =
      some (tid, s, Pintos.update_thread_block
        (fun x => { x with semapth := x.semapth - 1 })
        (Pintos.update_thread_block (fun x => { x with was_waited := true }) l tid) tid) ∧
    (∀ s2 : Nat, Pintos.pthread_join main_tid s2 tid
        (Pintos.update_thread_block (fun x => { x with semapth := x.semapth - 1 })
          (Pintos.update_thread_block (fun x => { x with was_waited := true }) l tid) tid) =
      some (Pintos.TID_ERROR, s2,
        Pintos.update_thread_block (fun x => { x with semapth := x.semapth - 1 })
          (Pintos.update_thread_block (fun x => { x with was_waited := true }) l tid) tid)) ∧
    (∀ (s0 : Nat) (l0 : List Pintos.ThreadBlock) (r : Int) (s' : Nat)
        (l' : List Pintos.ThreadBlock),
      Pintos.pthread_join main_tid s0 main_tid l0 = some (r, s', l') → r = main_tid) := by
  have hget2 : Pintos.get_thread_block
      (Pintos.update_thread_block (fun x => { x with semapth := x.semapth - 1 })
        (Pintos.update_thread_block (fun x => { x with was_waited := true }) l tid) tid) tid =
      some { b with was_waited := true, semapth := b.semapth - 1 } := by
    rw [Pintos.get_update_eq (fun x => { x with semapth := x.semapth - 1 }) (fun _ => rfl) _ tid,
      Pintos.get_update_eq (fun x => { x with was_waited := true }) (fun _ => rfl) l tid, hget]
    rfl
  refine ⟨?_, ?_, ?_⟩
  · unfold Pintos.pthread_join
    rw [if_neg hne, hget]
    simp only [hpid, ne_eq, not_true_eq_false, if_false, hw, Bool.false_eq_true, hs, ite_false]
  · intro s2
    unfold Pintos.pthread_join
    rw [if_neg hne, hget2]
    simp only [hpid, ne_eq, not_true_eq_false, if_false, if_true]
  · intro s0 l0 r s' l' h
    unfold Pintos.pthread_join at h
    rw [if_pos rfl] at h
    by_cases h0 : s0 = 0
    · rw [if_pos h0] at h
      exact absurd h (by simp)
    · rw [if_neg h0] at h
      exact (Prod.mk.injEq _ _ _ _ ▸ (Option.some.injEq _ _ ▸ h)).1.symm ▸ rfl

/-- Witness for `c6_pthread_join_once` at a concrete table. -/
theorem c6_pthread_join_once_witness :
    (7 : Int) ≠ 1 ∧
    Pintos.get_thread_block [⟨7, 1, 0, false, 1, 0, true⟩] 7 =
      some ⟨7, 1, 0, false, 1, 0, true⟩ ∧
    Pintos.pthread_join 1 0 7 [⟨7, 1, 0, false, 1, 0, true⟩] =
      some (7, 0, Pintos.update_thread_block
        (fun x => { x with semapth := x.semapth - 1 })
        (Pintos.update_thread_block (fun x => { x with was_waited := true })
          [⟨7, 1, 0, false, 1, 0, true⟩] 7) 7) :=
  ⟨by decide, by decide,
    (c6_pthread_join_once 1 7 0 [⟨7, 1, 0, false, 1, 0, true⟩] ⟨7, 1, 0, false, 1, 0, true⟩
      (by decide) (by decide) rfl rfl (by decide)).1⟩

/-- C4: when `thread_create` fails with `TID_ERROR`, `process_execute`
does free the command-line scratch page, but then calls `sema_down` on
the record's load barrier — initialised to 0 and, with no child in
existence, never signalled — so it blocks forever instead of returning
`TID_ERROR` as its own documentation promises. -/
theorem c4_process_execute_create_fail (cur : Int) (cs cls : Bool)
    (l : List Pintos.ThreadBlock) :
    Pintos.process_execute cur true Pintos.TID_ERROR cs cls l =
      Pintos.ExecOutcome.blockedOnLoadBarrier
        (l ++ [⟨Pintos.TID_ERROR, cur, -1, false, 0, 0, false⟩]) true ∧
    ∀ (r : Int) (l2 : List Pintos.ThreadBlock) (pf : Bool),
      Pintos.process_execute cur true Pintos.TID_ERROR cs cls l ≠
        Pintos.ExecOutcome.returned r l2 pf := by
  constructor
  · simp [Pintos.process_execute]
  · intro r l2 pf h
    simp [Pintos.process_execute] at h

/-- Witness for `c4_process_execute_create_fail`: the parent is left
blocked on the load barrier at a concrete input. -/
theorem c4_process_execute_create_fail_witness :
    Pintos.process_execute 1 true Pintos.TID_ERROR false false [] =
      Pintos.ExecOutcome.blockedOnLoadBarrier
        [⟨Pintos.TID_ERROR, 1, -1, false, 0, 0, false⟩] true :=
  (c4_process_execute_create_fail 1 false false []).1

/-- C10: with a NULL `pcb`, `process_exit` signals the calling
thread's own join record when one exists (leaving the record in the
table) and terminates the thread; the file tables, sync-object tables,
page directories and every other thread's join record are untouched. -/
theorem c10_process_exit_null_pcb (s : Pintos.KernelState) (tid : Int) :
    (Pintos.process_exit_null_pcb s tid).fileTables = s.fileTables ∧
    (Pintos.process_exit_null_pcb s tid).syncTables = s.syncTables ∧
    (Pintos.process_exit_null_pcb s tid).pageDirs = s.pageDirs ∧
    (Pintos.process_exit_null_pcb s tid).allList = s.allList.erase tid ∧
    (Pintos.process_exit_null_pcb s tid).blocks.filter (fun b => !(decide (b.tid = tid))) =
      s.blocks.filter (fun b => !(decide (b.tid = tid))) ∧
    (Pintos.process_exit_null_pcb s tid).blocks.length = s.blocks.length ∧
    (∀ b, Pintos.get_thread_block s.blocks tid = some b →
      Pintos.get_thread_block (Pintos.process_exit_null_pcb s tid).blocks tid =
        some { b with semapth := b.semapth + 1 }) ∧
    (Pintos.get_thread_block s.blocks tid = none →
      (Pintos.process_exit_null_pcb s tid).blocks = s.blocks) := by
  unfold Pintos.process_exit_null_pcb Pintos.thread_exit_state
  refine ⟨rfl, rfl, rfl, rfl, ?_, ?_, ?_, ?_⟩
  · show (Pintos.sema_up_block s.blocks tid).filter _ = _
    unfold Pintos.sema_up_block
    cases hg : Pintos.get_thread_block s.blocks tid with
    | none => rfl
    | some b =>
      exact Pintos.filter_update_ne (fun x => { x with semapth := x.semapth + 1 })
        (fun _ => rfl) s.blocks tid
  · show (Pintos.sema_up_block s.blocks tid).length = _
    unfold Pintos.sema_up_block
    cases hg : Pintos.get_thread_block s.blocks tid with
    | none => rfl
    | some b =>
      exact Pintos.length_update (fun x => { x with semapth := x.semapth + 1 }) s.blocks tid
  · intro b hb
    show Pintos.get_thread_block (Pintos.sema_up_block s.blocks tid) tid = _
    unfold Pintos.sema_up_block
    rw [hb]
    rw [Pintos.get_update_eq (fun x => { x with semapth := x.semapth + 1 })
      (fun _ => rfl) s.blocks tid, hb]
    rfl
  · intro hnone
    show Pintos.sema_up_block s.blocks tid = _
    unfold Pintos.sema_up_block
    rw [hnone]

/-- Witness for `c10_process_exit_null_pcb` at a concrete state. -/
theorem c10_process_exit_null_pcb_witness :
    Pintos.get_thread_block [⟨7, 1, 0, false, 0, 0, false⟩] 7 =
      some ⟨7, 1, 0, false, 0, 0, false⟩ ∧
    Pintos.get_thread_block
      (Pintos.process_exit_null_pcb
        ⟨[⟨7, 1, 0, false, 0, 0, false⟩], [7, 9], [], [], []⟩ 7).blocks 7 =
      some ⟨7, 1, 0, false, 1, 0, false⟩ :=
  ⟨by decide,
    (c10_process_exit_null_pcb
      ⟨[⟨7, 1, 0, false, 0, 0, false⟩], [7, 9], [], [], []⟩ 7).2.2.2.2.2.2.1
      ⟨7, 1, 0, false, 0, 0, false⟩ (by decide)⟩
